import Mathlib

/-!
Verification of the room-allocation engine of `allocate_rooms.py`
(repository `martinomartini/room-allocator-streamlit`), together with the
validation and configuration helpers of `utils/validation.py`, `app.py`
and `config.py`.

The Python code is shallowly embedded as executable Lean functions:

* days are the five weekday labels of `get_day_mapping` (each label is
  mapped by the code to a distinct calendar date of the current week, so
  the label ↔ date mapping is a bijection and we use the labels
  themselves as the day type);
* the database cursor is replaced by an explicit, append-only list of
  `weekly_allocations` rows;
* Python's global `random` state is replaced by an explicit `Nat` seed
  threaded through the computation; `random.shuffle` is modelled by an
  executable permutation-producing function of the current seed.  All
  universally quantified theorems below hold for every seed, hence for
  every sequence of permutations the Python RNG could produce;
* `int(team_size)` (which raises on malformed input, caught by the
  `except Exception` handler that rolls the whole run back) is modelled
  by rows carrying `Option Int` and an `Except`-valued runner.
-/

/-- The five weekday labels of `get_day_mapping` (`allocate_rooms.py`,
lines 11-21). -/
inductive Day where
  | monday
  | tuesday
  | wednesday
  | thursday
  | friday
deriving DecidableEq, Repr

/-- One entry of `rooms.json`: a `{name, capacity}` pair
(`allocate_rooms.py`, lines 60-68). -/
structure Room where
  name : String
  capacity : Int
deriving DecidableEq, Repr

/-- One row of the `weekly_allocations` table, as inserted by
`run_allocation` (columns `team_name, room_name, date`). -/
structure AllocRow where
  team_name : String
  room_name : String
  day : Day
deriving DecidableEq, Repr

/-- The `team_data` triple `(team_name, int(team_size), pref_day_labels)`
built at `allocate_rooms.py`, line 95. -/
structure TeamData where
  name : String
  size : Int
  pref : List String
deriving DecidableEq, Repr

/-- The linear-congruential step used to model successive states of the
global random generator.  The multiplier/increment are those of the
standard 64-bit LCG; any injective-enough step would do, since every
theorem below is quantified over all seeds. -/
def lcgNext (s : Nat) : Nat :=
  (6364136223846793005 * s + 1442695040888963407) % 18446744073709551616

/-- Fuelled selection shuffle: repeatedly extract the element at index
`seed % length`.  This models `random.shuffle` as an executable function
of the seed; `shuffleFuel_perm` below shows it always returns a
permutation of its input, which is the only property of `random.shuffle`
the Python code relies on. -/
def shuffleFuel {α : Type} : Nat → List α → Nat → List α
  | 0, _, _ => []
  | _ + 1, [], _ => []
  | n + 1, x :: xs, s =>
      let l := x :: xs
      let i := s % l.length
      have hi : i < l.length := Nat.mod_lt _ (by simp [l])
      l.get ⟨i, hi⟩ :: shuffleFuel n (l.eraseIdx i) (lcgNext s)

/-- Model of `random.shuffle l` under the current generator state `s`. -/
def shuffle {α : Type} (l : List α) (s : Nat) : List α :=
  shuffleFuel l.length l s

/-- Removing the element at a valid index shortens a list by one. -/
theorem length_eraseIdx_of_lt {α : Type} :
    ∀ (l : List α) (i : Nat), i < l.length → (l.eraseIdx i).length = l.length - 1
  | [], i, h => by simp at h
  | _ :: _, 0, _ => by simp [List.eraseIdx]
  | x :: xs, i + 1, h => by
      simp only [List.eraseIdx, List.length_cons]
      rw [length_eraseIdx_of_lt xs i (by simpa using Nat.lt_of_succ_lt_succ h)]
      have : 0 < xs.length := Nat.lt_of_le_of_lt (Nat.zero_le _) (Nat.lt_of_succ_lt_succ h)
      omega

/-- Putting the selected element back in front of the remainder is a
permutation of the original list. -/
theorem get_cons_eraseIdx_perm {α : Type} :
    ∀ (l : List α) (i : Fin l.length), List.Perm (l.get i :: l.eraseIdx i) l
  | _ :: _, ⟨0, _⟩ => by simp [List.eraseIdx]
  | x :: xs, ⟨i + 1, h⟩ => by
      simp only [List.get, List.eraseIdx]
      exact (List.Perm.swap x _ _).trans
        ((get_cons_eraseIdx_perm xs ⟨i, Nat.lt_of_succ_lt_succ h⟩).cons x)

/-- With enough fuel, the selection shuffle permutes its input. -/
theorem shuffleFuel_perm {α : Type} :
    ∀ (n : Nat) (l : List α) (s : Nat), l.length ≤ n → List.Perm (shuffleFuel n l s) l
  | 0, l, _, h => by
      have : l = [] := List.eq_nil_of_length_eq_zero (Nat.le_zero.mp h)
      simp [this, shuffleFuel]
  | _ + 1, [], _, _ => by simp [shuffleFuel]
  | n + 1, x :: xs, s, h => by
      simp only [shuffleFuel]
      have hi : s % (x :: xs).length < (x :: xs).length :=
        Nat.mod_lt _ (by simp)
      have hlen : ((x :: xs).eraseIdx (s % (x :: xs).length)).length ≤ n := by
        rw [length_eraseIdx_of_lt _ _ hi]
        simpa using Nat.le_of_succ_le_succ h
      exact ((shuffleFuel_perm n _ (lcgNext s) hlen).cons _).trans
        (get_cons_eraseIdx_perm (x :: xs) ⟨s % (x :: xs).length, hi⟩)

/-- `shuffle` returns a permutation of its input. -/
theorem shuffle_perm {α : Type} (l : List α) (s : Nat) : List.Perm (shuffle l s) l :=
  shuffleFuel_perm _ _ _ (Nat.le_refl _)

/-- Membership is invariant under `shuffle`. -/
theorem mem_shuffle_iff {α : Type} {x : α} {l : List α} {s : Nat} :
    x ∈ shuffle l s ↔ x ∈ l :=
  (shuffle_perm l s).mem_iff

/-- `shuffle` preserves length; in particular it maps nonempty lists to
nonempty lists, which is how `best_fit_candidate_rooms[0]` is always
defined in the Python code. -/
theorem shuffle_length {α : Type} (l : List α) (s : Nat) :
    (shuffle l s).length = l.length :=
  (shuffle_perm l s).length_eq

/-- ASCII whitespace test matching the characters `str.strip()` removes
from the day strings that occur in this application. -/
def isSpaceChar (c : Char) : Bool :=
  c == ' ' || c == '\t' || c == '\n' || c == '\r'

/-- Model of Python `str.strip()` on a day label. -/
def pyStrip (s : String) : String :=
  String.mk (((s.data.dropWhile isSpaceChar).reverse.dropWhile isSpaceChar).reverse)

/-- Model of Python `str.capitalize()` (first character upper-cased, the
rest lower-cased; the labels here are ASCII). -/
def pyCapitalize (s : String) : String :=
  match s.data with
  | [] => ""
  | c :: cs => String.mk (c.toUpper :: cs.map Char.toLower)

/-- Model of Python `str.split(',')`: split on every comma, keeping empty
fragments (`"".split(',') == [""]`). -/
def splitCommaAux : List Char → List Char → List String
  | [], acc => [String.mk acc.reverse]
  | c :: cs, acc =>
      if c == ',' then String.mk acc.reverse :: splitCommaAux cs []
      else splitCommaAux cs (c :: acc)

/-- See `splitCommaAux`. -/
def splitComma (s : String) : List String :=
  splitCommaAux s.data []

/-- Python string comparison: code-point lexicographic order on the
character lists. -/
def charListLt : List Char → List Char → Bool
  | [], [] => false
  | [], _ :: _ => true
  | _ :: _, [] => false
  | a :: as, b :: bs =>
      if a.toNat < b.toNat then true
      else if b.toNat < a.toNat then false
      else charListLt as bs

/-- Python `<` on strings. -/
def pyStrLt (a b : String) : Bool :=
  charListLt a.data b.data

/-- Stable insertion into an ascending list, matching the placement
Python's stable `sorted` gives an element relative to earlier equal
elements. -/
def insertStrAsc (x : String) : List String → List String
  | [] => [x]
  | y :: ys => if pyStrLt y x then y :: insertStrAsc x ys else x :: y :: ys

/-- Model of Python `sorted` on a list of strings (ascending, stable). -/
def sortStrings (l : List String) : List String :=
  l.foldr insertStrAsc []

/-- The normalisation of `preferred_days` performed at
`allocate_rooms.py`, lines 92-94:
`sorted([day.strip().capitalize() for day in preferred_days_str.split(',') if day.strip()])`. -/
def normalizeDays (s : String) : List String :=
  sortStrings (((splitComma s).filter (fun d => !(pyStrip d == ""))).map
    (fun d => pyCapitalize (pyStrip d)))

/-- The three routing buckets built by the classification loop at
`allocate_rooms.py`, lines 86-103. -/
structure Classified where
  monWed : List TeamData
  tueThu : List TeamData
  fallbackNow : List TeamData
deriving DecidableEq, Repr

/-- The classification loop at `allocate_rooms.py`, lines 90-103: each
row is normalised and appended to `teams_for_mon_wed`,
`teams_for_tue_thu` or `teams_for_fallback_immediately` according to the
literal comparison of the **sorted** label list with
`["Monday", "Wednesday"]` / `["Tuesday", "Thursday"]`. -/
def classifyTeams : List (String × Int × String) → Classified
  | [] => ⟨[], [], []⟩
  | (n, sz, prefStr) :: rest =>
      let c := classifyTeams rest
      let labels := normalizeDays prefStr
      let t : TeamData := ⟨n, sz, labels⟩
      if labels = ["Monday", "Wednesday"] then { c with monWed := t :: c.monWed }
      else if labels = ["Tuesday", "Thursday"] then { c with tueThu := t :: c.tueThu }
      else { c with fallbackNow := t :: c.fallbackNow }

example : normalizeDays "Monday,Wednesday" = ["Monday", "Wednesday"] := by decide

example : normalizeDays "Tuesday,Thursday" = ["Thursday", "Tuesday"] := by decide

example : normalizeDays " tuesday , THURSDAY " = ["Thursday", "Tuesday"] := by decide

/-- Stable insertion for the descending-by-size sort
`sorted(teams, key=lambda x: x[1], reverse=True)` used at
`allocate_rooms.py`, lines 117 and 182.  An element is inserted before
the first later element of strictly smaller-or-equal size, which
reproduces Python's stable sort. -/
def insertTeamDesc (t : TeamData) : List TeamData → List TeamData
  | [] => [t]
  | u :: us => if u.size ≤ t.size then t :: u :: us else u :: insertTeamDesc t us

/-- Model of `sorted(teams, key=lambda x: x[1], reverse=True)`. -/
def sortTeamsDesc (l : List TeamData) : List TeamData :=
  l.foldr insertTeamDesc []

/-- Membership is invariant under `insertTeamDesc`. -/
theorem mem_insertTeamDesc {x t : TeamData} :
    ∀ {l : List TeamData}, x ∈ insertTeamDesc t l ↔ x = t ∨ x ∈ l
  | [] => by simp [insertTeamDesc]
  | u :: us => by
      by_cases h : u.size ≤ t.size
      · simp [insertTeamDesc, h]
      · simp only [insertTeamDesc, if_neg h, List.mem_cons, mem_insertTeamDesc (l := us)]
        tauto

/-- Membership is invariant under `sortTeamsDesc`. -/
theorem mem_sortTeamsDesc {x : TeamData} :
    ∀ {l : List TeamData}, x ∈ sortTeamsDesc l ↔ x ∈ l
  | [] => Iff.rfl
  | u :: us => by
      simp only [sortTeamsDesc, List.foldr_cons, mem_insertTeamDesc, List.mem_cons]
      rw [show List.foldr insertTeamDesc [] us = sortTeamsDesc us from rfl,
        mem_sortTeamsDesc (l := us)]

/-- The mutable allocator state of the project-room phase: the
`used_rooms_on_date` map (as a list of `(day, room_name)` occupancies),
the `placed_teams_info` map (as a list of `(team_name, date1, date2)`
records), the `weekly_allocations` rows inserted so far, and the RNG
state. -/
structure PState where
  used : List (Day × String)
  placed : List (String × Day × Day)
  allocs : List AllocRow
  rng : Nat
deriving DecidableEq, Repr

/-- The list of room names used on day `d`: `used_rooms_on_date[date]`. -/
def usedOn (used : List (Day × String)) (d : Day) : List String :=
  (used.filter (fun p => p.1 == d)).map (fun p => p.2)

/-- `placed_teams_info` keys. -/
def placedNames (st : PState) : List String :=
  st.placed.map (fun p => p.1)

/-- The `team_name in placed_teams_info` test
(`allocate_rooms.py`, lines 122 and 185). -/
def isPlaced (st : PState) (n : String) : Bool :=
  st.placed.any (fun p => p.1 == n)

/-- The eligible-room filter computed identically at
`allocate_rooms.py`, lines 130-135 (`possible_rooms_for_team`) and lines
212-217 (`possible_rooms_for_fallback`): rooms unoccupied on both days
whose capacity is at least the team size. -/
def possible_rooms_for_team (project_rooms : List Room) (used : List (Day × String))
    (d1 d2 : Day) (team_size : Int) : List Room :=
  project_rooms.filter (fun r =>
    !((usedOn used d1).contains r.name) && !((usedOn used d2).contains r.name) &&
      decide (team_size ≤ r.capacity))

/-- `min(r['capacity'] for r in rooms)` over a nonempty list
(`allocate_rooms.py`, lines 145 and 223); 0 on the empty list, which the
code never queries. -/
def min_suitable_capacity : List Room → Int
  | [] => 0
  | r :: rs => rs.foldl (fun m r2 => min m r2.capacity) r.capacity

/-- One placement attempt of a team on a fixed day pair.  This embeds the
body shared verbatim by Phase 1 (`allocate_rooms.py`, lines 130-166) and
the fallback phase (lines 212-241): compute the eligible rooms; if none,
report failure (`none`); otherwise take the minimum-capacity candidates,
shuffle them, book the first on both days, and record the team as
placed. -/
def try_place_on_pair (project_rooms : List Room) (d1 d2 : Day) (t : TeamData)
    (st : PState) : Option PState :=
  let possible := possible_rooms_for_team project_rooms st.used d1 d2 t.size
  match possible with
  | [] => none
  | _ :: _ =>
      let m := min_suitable_capacity possible
      let best := possible.filter (fun r => r.capacity == m)
      match shuffle best st.rng with
      | [] => none
      | chosen :: _ =>
          some { used := st.used ++ [(d1, chosen.name), (d2, chosen.name)]
               , placed := st.placed ++ [(t.name, d1, d2)]
               , allocs := st.allocs ++
                   [⟨t.name, chosen.name, d1⟩, ⟨t.name, chosen.name, d2⟩]
               , rng := lcgNext st.rng }

/-- The team loop of `attempt_placement_for_pair`
(`allocate_rooms.py`, lines 121-168): already-placed teams are skipped,
teams with no eligible room are appended to
`still_unplaced_from_this_pair`, the others are booked. -/
def attempt_placement_go (project_rooms : List Room) (d1 d2 : Day) :
    List TeamData → PState → List TeamData → PState × List TeamData
  | [], st, unpl => (st, unpl)
  | t :: rest, st, unpl =>
      if isPlaced st t.name then attempt_placement_go project_rooms d1 d2 rest st unpl
      else
        match try_place_on_pair project_rooms d1 d2 t st with
        | some st' => attempt_placement_go project_rooms d1 d2 rest st' unpl
        | none => attempt_placement_go project_rooms d1 d2 rest st (unpl ++ [t])

/-- `attempt_placement_for_pair(teams, day1, day2)`
(`allocate_rooms.py`, lines 109-168): sort the pair's teams by size
descending, then run the placement loop. -/
def attempt_placement_for_pair (project_rooms : List Room) (teams : List TeamData)
    (d1 d2 : Day) (st : PState) : PState × List TeamData :=
  attempt_placement_go project_rooms d1 d2 (sortTeamsDesc teams) st []

/-- `list(combinations(["Monday","Tuesday","Wednesday","Thursday"], 2))`
(`allocate_rooms.py`, lines 194-195). -/
def project_work_day_pairs : List (Day × Day) :=
  [(.monday, .tuesday), (.monday, .wednesday), (.monday, .thursday),
   (.tuesday, .wednesday), (.tuesday, .thursday), (.wednesday, .thursday)]

/-- The fallback day-pair loop (`allocate_rooms.py`, lines 198-241): try
each candidate pair in the given order and stop at the first success. -/
def try_pairs (project_rooms : List Room) (t : TeamData) :
    List (Day × Day) → PState → Option PState
  | [], _ => none
  | (d1, d2) :: rest, st =>
      match try_place_on_pair project_rooms d1 d2 t st with
      | some st' => some st'
      | none => try_pairs project_rooms t rest st

/-- The fallback team loop (`allocate_rooms.py`, lines 184-245):
already-placed teams are skipped; otherwise the day pairs are shuffled
and tried in order; a team for which every pair fails is appended to
`final_unplaced_project_teams`. -/
def fallback_go (project_rooms : List Room) :
    List TeamData → PState → List TeamData → PState × List TeamData
  | [], st, unpl => (st, unpl)
  | t :: rest, st, unpl =>
      if isPlaced st t.name then fallback_go project_rooms rest st unpl
      else
        let pairs := shuffle project_work_day_pairs st.rng
        let st1 : PState := { st with rng := lcgNext st.rng }
        match try_pairs project_rooms t pairs st1 with
        | some st' => fallback_go project_rooms rest st' unpl
        | none => fallback_go project_rooms rest st1 (unpl ++ [t])

/-- The whole project-room allocation (`allocate_rooms.py`, lines
77-249): classify the preference rows, shuffle the three buckets, run
Phase 1 on the Monday/Wednesday and Tuesday/Thursday buckets, pool the
leftovers with the direct-fallback teams, shuffle, sort by size
descending, and run the fallback loop.  Returns the final state and
`final_unplaced_project_teams`. -/
def project_allocation (project_rooms : List Room)
    (rows : List (String × Int × String)) (seed : Nat) : PState × List TeamData :=
  let cls := classifyTeams rows
  let monWed := shuffle cls.monWed seed
  let s1 := lcgNext seed
  let tueThu := shuffle cls.tueThu s1
  let s2 := lcgNext s1
  let fbNow := shuffle cls.fallbackNow s2
  let s3 := lcgNext s2
  let st0 : PState := { used := [], placed := [], allocs := [], rng := s3 }
  let r1 := attempt_placement_for_pair project_rooms monWed .monday .wednesday st0
  let r2 := attempt_placement_for_pair project_rooms tueThu .tuesday .thursday r1.1
  let pool := r1.2 ++ r2.2 ++ fbNow
  let pool2 := shuffle pool r2.1.rng
  let st3 : PState := { r2.1 with rng := lcgNext r2.1.rng }
  fallback_go project_rooms (sortTeamsDesc pool2) st3 []

/-- `Config.MIN_TEAM_SIZE` (`config.py`, line 52). -/
def MIN_TEAM_SIZE : Int := 3

/-- `Config.MAX_TEAM_SIZE` (`config.py`, line 53). -/
def MAX_TEAM_SIZE : Int := 6

/-- `Config.OASIS_DEFAULT_CAPACITY` (`config.py`, line 49). -/
def OASIS_DEFAULT_CAPACITY : Int := 12

/-- `validate_team_size` (`utils/validation.py`, lines 25-30): accept a
size iff `MIN_TEAM_SIZE <= team_size <= MAX_TEAM_SIZE`. -/
def validate_team_size (team_size : Int) : Bool :=
  decide (MIN_TEAM_SIZE ≤ team_size) && decide (team_size ≤ MAX_TEAM_SIZE)

/-- The `int(team_size)` conversions of the classification loop
(`allocate_rooms.py`, line 95).  A row carries `none` when `int(...)`
would raise; the resulting `ValueError` escapes to the general handler
at lines 321-327, which rolls the transaction back and fails the whole
run, so a single malformed row yields `Except.error`. -/
def parseRows : List (String × Option Int × String) → Except String (List (String × Int × String))
  | [] => .ok []
  | (n, some z, p) :: rest => (parseRows rest).map (fun l => (n, z, p) :: l)
  | (_, none, _) :: _ =>
      .error "General error during allocation: ValueError - invalid literal for int()"

/-- `project_rooms` (`allocate_rooms.py`, line 67): every configured room
not named `"Oasis"`. -/
def project_rooms_of (config : List Room) : List Room :=
  config.filter (fun r => !(r.name == "Oasis"))

/-- `oasis_config` (`allocate_rooms.py`, lines 68-74): the first
configured room named `"Oasis"`, or the hard-coded default
`{"name": "Oasis", "capacity": 15}` when none exists. -/
def oasis_config_of (config : List Room) : Room :=
  match config.find? (fun r => r.name == "Oasis") with
  | some r => r
  | none => ⟨"Oasis", 15⟩

/-- `max_oasis_days_per_person` (`allocate_rooms.py`, line 276). -/
def max_oasis_days_per_person : Nat := 2

/-- The `day_mapping` membership test used on Oasis preference labels
(`allocate_rooms.py`, line 281); valid labels are identified with their
`Day`. -/
def day_of_label (l : String) : Option Day :=
  if l == "Monday" then some .monday
  else if l == "Tuesday" then some .tuesday
  else if l == "Wednesday" then some .wednesday
  else if l == "Thursday" then some .thursday
  else if l == "Friday" then some .friday
  else none

/-- The preferred-day normalisation at `allocate_rooms.py`, lines
279-282: keep the non-null, non-empty labels whose
`strip().capitalize()` form is a `day_mapping` key. -/
def oasisPrefDays (raw : List (Option String)) : List Day :=
  raw.filterMap (fun o =>
    match o with
    | none => none
    | some s => if s == "" then none else day_of_label (pyCapitalize (pyStrip s)))

/-- The mutable Oasis allocator state: the per-day occupant sets
`oasis_allocations_on_actual_date` (as `(day, person)` pairs, kept
duplicate-free by the membership guard), the
`person_assigned_oasis_days_count` map, the inserted rows, and the RNG
state. -/
structure OState where
  oasis : List (Day × String)
  counts : String → Nat
  allocs : List AllocRow
  rng : Nat

/-- The per-person day loop (`allocate_rooms.py`, lines 287-304): stop
as soon as the person holds `max_oasis_days_per_person` days; otherwise
assign the day when the day's occupancy is below capacity and the person
is not already booked on it. -/
def oasis_assign_days (oasisCfg : Room) (p : String) : List Day → OState → OState
  | [], st => st
  | d :: rest, st =>
      if max_oasis_days_per_person ≤ st.counts p then st
      else
        if ((usedOn st.oasis d).length : Int) < oasisCfg.capacity then
          if (usedOn st.oasis d).contains p then oasis_assign_days oasisCfg p rest st
          else
            oasis_assign_days oasisCfg p rest
              { st with
                  oasis := st.oasis ++ [(d, p)]
                , allocs := st.allocs ++ [⟨p, oasisCfg.name, d⟩]
                , counts := fun n => if n == p then st.counts n + 1 else st.counts n }
        else oasis_assign_days oasisCfg p rest st

/-- The person loop (`allocate_rooms.py`, lines 278-304): each person's
valid preferred days are shuffled and walked in order. -/
def oasis_allocation_go (oasisCfg : Room) :
    List (String × List (Option String)) → OState → OState
  | [], st => st
  | (p, rawDays) :: rest, st =>
      let days := shuffle (oasisPrefDays rawDays) st.rng
      let st1 : OState := { st with rng := lcgNext st.rng }
      oasis_allocation_go oasisCfg rest (oasis_assign_days oasisCfg p days st1)

/-- The Oasis allocation phase (`allocate_rooms.py`, lines 253-309): a
no-op when there are no preference rows; otherwise shuffle the rows,
start from empty occupancy and zero counts, and run the person loop.
Returns the inserted `weekly_allocations` rows. -/
def oasis_allocation (oasisCfg : Room) (person_rows : List (String × List (Option String)))
    (seed : Nat) : List AllocRow :=
  match person_rows with
  | [] => []
  | _ :: _ =>
      let shuffled := shuffle person_rows seed
      let st0 : OState := { oasis := [], counts := fun _ => 0, allocs := [], rng := lcgNext seed }
      (oasis_allocation_go oasisCfg shuffled st0).allocs

/-- `run_allocation` with `only=None` (`allocate_rooms.py`, lines
23-327), restricted to its pure allocation content: parse the raw
preference rows (a malformed team size aborts the run, modelling the
exception path), run the project-room allocation, then the Oasis
allocation on the continued RNG stream, and return all inserted
`weekly_allocations` rows together with `final_unplaced_project_teams`. -/
def run_allocation (config : List Room)
    (raw_team_rows : List (String × Option Int × String))
    (person_rows : List (String × List (Option String)))
    (seed : Nat) : Except String (List AllocRow × List TeamData) :=
  match parseRows raw_team_rows with
  | .error e => .error e
  | .ok rows =>
      let pr := project_allocation (project_rooms_of config) rows seed
      let oasisAllocs := oasis_allocation (oasis_config_of config) person_rows pr.1.rng
      .ok (pr.1.allocs ++ oasisAllocs, pr.2)

/-- The rows a run committed (none when the run failed and rolled back). -/
def allocsOfRun (r : Except String (List AllocRow × List TeamData)) : List AllocRow :=
  match r with
  | .ok (a, _) => a
  | .error _ => []

/-- The unplaced-team report of a run (empty when the run failed). -/
def unplacedOfRun (r : Except String (List AllocRow × List TeamData)) : List TeamData :=
  match r with
  | .ok (_, u) => u
  | .error _ => []

/-- A name is on `usedOn used d` exactly when the pair `(d, name)` is an
occupancy record. -/
theorem mem_usedOn {used : List (Day × String)} {d : Day} {x : String} :
    x ∈ usedOn used d ↔ (d, x) ∈ used := by
  simp only [usedOn, List.mem_map, List.mem_filter]
  constructor
  · rintro ⟨⟨d', y⟩, ⟨hm, hd⟩, rfl⟩
    simp only [beq_iff_eq] at hd
    subst hd
    exact hm
  · intro h
    exact ⟨(d, x), ⟨h, by simp⟩, rfl⟩

/-- Characterisation of the eligible-room filter: membership in the
configured list, both days free, and sufficient capacity. -/
theorem mem_possible_rooms {rooms : List Room} {used : List (Day × String)}
    {d1 d2 : Day} {sz : Int} {r : Room} :
    r ∈ possible_rooms_for_team rooms used d1 d2 sz ↔
      r ∈ rooms ∧ (d1, r.name) ∉ used ∧ (d2, r.name) ∉ used ∧ sz ≤ r.capacity := by
  have hc : ∀ (l : List String) (x : String), (l.contains x = false) ↔ x ∉ l := by
    intro l x
    rw [← Bool.not_eq_true, not_iff_not]
    exact List.elem_iff
  simp only [possible_rooms_for_team, List.mem_filter, Bool.and_eq_true, Bool.not_eq_true',
    decide_eq_true_eq, hc, mem_usedOn]
  tauto

/-- The running minimum of a capacity fold is bounded by its seed. -/
theorem foldl_min_le_init (rs : List Room) (a : Int) :
    rs.foldl (fun m r2 => min m r2.capacity) a ≤ a := by
  induction rs generalizing a with
  | nil => simp
  | cons r rs ih => exact le_trans (ih _) (min_le_left _ _)

/-- The running minimum of a capacity fold is bounded by every member's
capacity. -/
theorem foldl_min_le_mem {r : Room} (rs : List Room) (a : Int) (h : r ∈ rs) :
    rs.foldl (fun m r2 => min m r2.capacity) a ≤ r.capacity := by
  induction rs generalizing a with
  | nil => simp at h
  | cons r0 rs ih =>
      simp only [List.foldl_cons]
      rcases List.mem_cons.mp h with rfl | h
      · exact le_trans (foldl_min_le_init _ _) (min_le_right _ _)
      · exact ih _ h

/-- `min_suitable_capacity` is a lower bound on all eligible capacities. -/
theorem min_suitable_capacity_le {l : List Room} {r : Room} (h : r ∈ l) :
    min_suitable_capacity l ≤ r.capacity := by
  match l, h with
  | r0 :: rs, h =>
      rcases List.mem_cons.mp h with rfl | h
      · exact foldl_min_le_init rs r.capacity
      · exact foldl_min_le_mem rs r0.capacity h

/-- The capacity fold attains either its seed or some member's capacity. -/
theorem foldl_min_attained (rs : List Room) (a : Int) :
    rs.foldl (fun m r2 => min m r2.capacity) a = a ∨
      ∃ r ∈ rs, rs.foldl (fun m r2 => min m r2.capacity) a = r.capacity := by
  induction rs generalizing a with
  | nil => exact Or.inl rfl
  | cons r0 rs ih =>
      rcases ih (min a r0.capacity) with h | ⟨r, hr, h⟩
      · rcases min_choice a r0.capacity with hm | hm
        · exact Or.inl (by simpa [hm] using h)
        · exact Or.inr ⟨r0, List.mem_cons_self _ _, by simpa [hm] using h⟩
      · exact Or.inr ⟨r, List.mem_cons_of_mem _ hr, h⟩

/-- On a nonempty list, `min_suitable_capacity` is attained by a member,
so the best-fit candidate filter is never empty. -/
theorem min_suitable_capacity_attained {l : List Room} (h : l ≠ []) :
    ∃ r ∈ l, r.capacity = min_suitable_capacity l := by
  match l, h with
  | r0 :: rs, _ =>
      rcases foldl_min_attained rs r0.capacity with h | ⟨r, hr, h⟩
      · exact ⟨r0, List.mem_cons_self _ _, h.symm⟩
      · exact ⟨r, List.mem_cons_of_mem _ hr, h.symm⟩

/-- With no eligible room the placement attempt fails (the team is then
deferred by the callers: Phase 1 appends it to the pair's unplaced list,
the fallback loop tries the next day pair). -/
theorem try_place_none_of_no_room {rooms : List Room} {d1 d2 : Day} {t : TeamData}
    {st : PState} (h : possible_rooms_for_team rooms st.used d1 d2 t.size = []) :
    try_place_on_pair rooms d1 d2 t st = none := by
  simp only [try_place_on_pair, h]

/-- Characterisation of a successful placement attempt: some eligible
room of minimum suitable capacity is booked on both days, the team is
recorded as placed, and exactly the two corresponding
`weekly_allocations` rows are inserted. -/
theorem try_place_eq_some {rooms : List Room} {d1 d2 : Day} {t : TeamData} {st st' : PState}
    (h : try_place_on_pair rooms d1 d2 t st = some st') :
    ∃ chosen,
      chosen ∈ possible_rooms_for_team rooms st.used d1 d2 t.size ∧
      chosen.capacity = min_suitable_capacity (possible_rooms_for_team rooms st.used d1 d2 t.size) ∧
      st' = { used := st.used ++ [(d1, chosen.name), (d2, chosen.name)]
            , placed := st.placed ++ [(t.name, d1, d2)]
            , allocs := st.allocs ++ [⟨t.name, chosen.name, d1⟩, ⟨t.name, chosen.name, d2⟩]
            , rng := lcgNext st.rng } := by
  simp only [try_place_on_pair] at h
  split at h
  · exact absurd h (by simp)
  next x xs heq =>
    split at h
    · exact absurd h (by simp)
    next chosen rest hs =>
      have hmem : chosen ∈ shuffle
          ((possible_rooms_for_team rooms st.used d1 d2 t.size).filter
            (fun r => r.capacity == min_suitable_capacity
              (possible_rooms_for_team rooms st.used d1 d2 t.size))) st.rng := by
        rw [hs]
        exact List.mem_cons_self _ _
      have hmem2 := mem_shuffle_iff.mp hmem
      have hposs := (List.mem_filter.mp hmem2).1
      have hcap : chosen.capacity = min_suitable_capacity
          (possible_rooms_for_team rooms st.used d1 d2 t.size) := by
        have := (List.mem_filter.mp hmem2).2
        exact beq_iff_eq.mp this
      exact ⟨chosen, hposs, hcap, (Option.some.injEq _ _).mp h.symm⟩

/-- A successful placement attempt exists exactly when some room is
eligible. -/
theorem try_place_isSome_of_nonempty {rooms : List Room} {d1 d2 : Day} {t : TeamData}
    {st : PState} (h : possible_rooms_for_team rooms st.used d1 d2 t.size ≠ []) :
    ∃ st', try_place_on_pair rooms d1 d2 t st = some st' := by
  obtain ⟨r, hr, hrc⟩ := min_suitable_capacity_attained h
  have hbest : r ∈ (possible_rooms_for_team rooms st.used d1 d2 t.size).filter
      (fun r2 => r2.capacity == min_suitable_capacity
        (possible_rooms_for_team rooms st.used d1 d2 t.size)) :=
    List.mem_filter.mpr ⟨hr, beq_iff_eq.mpr hrc⟩
  have hne : (shuffle ((possible_rooms_for_team rooms st.used d1 d2 t.size).filter
      (fun r2 => r2.capacity == min_suitable_capacity
        (possible_rooms_for_team rooms st.used d1 d2 t.size))) st.rng) ≠ [] := by
    intro hnil
    have := shuffle_length ((possible_rooms_for_team rooms st.used d1 d2 t.size).filter
      (fun r2 => r2.capacity == min_suitable_capacity
        (possible_rooms_for_team rooms st.used d1 d2 t.size))) st.rng
    rw [hnil] at this
    exact (List.ne_nil_of_mem hbest) (List.eq_nil_of_length_eq_zero this.symm)
  simp only [try_place_on_pair]
  split
  · exact absurd (by assumption) h
  · split
    · exact absurd (by assumption) hne
    · exact ⟨_, rfl⟩

/-- `isPlaced` decides membership in the `placed_teams_info` keys. -/
theorem isPlaced_iff {st : PState} {n : String} :
    isPlaced st n = true ↔ n ∈ placedNames st := by
  simp only [isPlaced, placedNames, List.any_eq_true, List.mem_map, beq_iff_eq]

/-- The capacity-ledger invariant maintained by the project-room
allocator: placed teams are recorded once; every inserted row's
`(day, room)` slot is marked in `used_rooms_on_date`; no `(day, room)`
slot is double-booked; no `(team, day)` pair is double-booked; a
non-placed team has no rows; a placed team has exactly its two rows in
one room on two distinct days; every booked room is a configured project
room. -/
structure PInv (project_rooms : List Room) (st : PState) : Prop where
  placed_nodup : (placedNames st).Nodup
  allocs_used : ∀ a ∈ st.allocs, (a.day, a.room_name) ∈ st.used
  dayroom_nodup : (st.allocs.map (fun a => (a.day, a.room_name))).Nodup
  teamday_nodup : (st.allocs.map (fun a => (a.team_name, a.day))).Nodup
  team_none : ∀ n, n ∉ placedNames st →
      st.allocs.filter (fun a => a.team_name == n) = []
  team_two : ∀ n, n ∈ placedNames st → ∃ r d1 d2, d1 ≠ d2 ∧
      st.allocs.filter (fun a => a.team_name == n) = [⟨n, r, d1⟩, ⟨n, r, d2⟩]
  rooms_proj : ∀ a ∈ st.allocs, ∃ rm ∈ project_rooms, a.room_name = rm.name

/-- The invariant holds for the fresh state of every allocation run. -/
theorem PInv_init (project_rooms : List Room) (r : Nat) :
    PInv project_rooms ⟨[], [], [], r⟩ := by
  constructor <;> simp [placedNames]

/-- The invariant is insensitive to the RNG component. -/
theorem PInv_rng (project_rooms : List Room) (st : PState) (r : Nat)
    (h : PInv project_rooms st) : PInv project_rooms { st with rng := r } := by
  obtain ⟨h1, h2, h3, h4, h5, h6, h7⟩ := h
  exact ⟨h1, h2, h3, h4, h5, h6, h7⟩

/-- A successful placement attempt on two distinct days preserves the
capacity-ledger invariant. -/
theorem PInv_try_place {project_rooms : List Room} {d1 d2 : Day} {t : TeamData}
    {st st' : PState} (hne : d1 ≠ d2) (hnp : t.name ∉ placedNames st)
    (hinv : PInv project_rooms st)
    (h : try_place_on_pair project_rooms d1 d2 t st = some st') :
    PInv project_rooms st' := by
  obtain ⟨c, hcp, _, rfl⟩ := try_place_eq_some h
  obtain ⟨hcr, hc1, hc2, _⟩ := mem_possible_rooms.mp hcp
  have hplaced : placedNames
      ({ used := st.used ++ [(d1, c.name), (d2, c.name)]
       , placed := st.placed ++ [(t.name, d1, d2)]
       , allocs := st.allocs ++ [⟨t.name, c.name, d1⟩, ⟨t.name, c.name, d2⟩]
       , rng := lcgNext st.rng } : PState) = placedNames st ++ [t.name] := by
    simp [placedNames]
  constructor
  case placed_nodup =>
    rw [hplaced, List.nodup_append]
    exact ⟨hinv.placed_nodup, List.nodup_singleton _,
      fun n hn hmem => hnp (by simp at hmem; simpa [hmem] using hn)⟩
  case allocs_used =>
    intro a ha
    rcases List.mem_append.mp ha with ha | ha
    · exact List.mem_append_left _ (hinv.allocs_used a ha)
    · rcases List.mem_cons.mp ha with rfl | ha
      · exact List.mem_append_right _ (by simp)
      · rcases List.mem_cons.mp ha with rfl | ha
        · exact List.mem_append_right _ (by simp)
        · simp at ha
  case dayroom_nodup =>
    simp only [List.map_append]
    rw [List.nodup_append]
    refine ⟨hinv.dayroom_nodup, by simp [hne], ?_⟩
    intro p hp hmem
    obtain ⟨a, ha, rfl⟩ := List.mem_map.mp hp
    have hused := hinv.allocs_used a ha
    simp only [List.map_cons, List.map_nil, List.mem_cons, List.not_mem_nil, or_false]
      at hmem
    rcases hmem with hmem | hmem
    · rw [hmem] at hused
      exact hc1 hused
    · rw [hmem] at hused
      exact hc2 hused
  case teamday_nodup =>
    simp only [List.map_append]
    rw [List.nodup_append]
    refine ⟨hinv.teamday_nodup, by simp [hne], ?_⟩
    intro p hp hmem
    obtain ⟨a, ha, rfl⟩ := List.mem_map.mp hp
    simp only [List.map_cons, List.map_nil, List.mem_cons, List.not_mem_nil, or_false]
      at hmem
    have hfil := hinv.team_none t.name hnp
    have : a ∈ st.allocs.filter (fun a => a.team_name == t.name) := by
      refine List.mem_filter.mpr ⟨ha, ?_⟩
      rcases hmem with hmem | hmem
      · exact beq_iff_eq.mpr (congrArg Prod.fst hmem)
      · exact beq_iff_eq.mpr (congrArg Prod.fst hmem)
    rw [hfil] at this
    simp at this
  case team_none =>
    intro n hn
    rw [hplaced] at hn
    simp only [List.mem_append, List.mem_singleton, not_or] at hn
    rw [List.filter_append, hinv.team_none n hn.1]
    simp [beq_iff_eq, Ne.symm hn.2]
  case team_two =>
    intro n hn
    rw [hplaced] at hn
    rcases List.mem_append.mp hn with hn | hn
    · have hne2 : t.name ≠ n := fun he => hnp (he ▸ hn)
      obtain ⟨r, e1, e2, hd, heq⟩ := hinv.team_two n hn
      refine ⟨r, e1, e2, hd, ?_⟩
      rw [List.filter_append, heq]
      simp [beq_iff_eq, hne2]
    · simp only [List.mem_singleton] at hn
      subst hn
      refine ⟨c.name, d1, d2, hne, ?_⟩
      rw [List.filter_append, hinv.team_none t.name hnp]
      simp
  case rooms_proj =>
    intro a ha
    rcases List.mem_append.mp ha with ha | ha
    · exact hinv.rooms_proj a ha
    · rcases List.mem_cons.mp ha with rfl | ha
      · exact ⟨c, hcr, rfl⟩
      · rcases List.mem_cons.mp ha with rfl | ha
        · exact ⟨c, hcr, rfl⟩
        · simp at ha

/-- The Phase-1 team loop preserves the capacity-ledger invariant. -/
theorem PInv_attempt_go {project_rooms : List Room} {d1 d2 : Day} (hne : d1 ≠ d2) :
    ∀ (teams : List TeamData) (st : PState) (unpl : List TeamData),
      PInv project_rooms st →
      PInv project_rooms (attempt_placement_go project_rooms d1 d2 teams st unpl).1
  | [], _, _, hinv => hinv
  | t :: rest, st, unpl, hinv => by
      simp only [attempt_placement_go]
      by_cases hp : isPlaced st t.name
      · rw [if_pos hp]
        exact PInv_attempt_go hne rest st unpl hinv
      · rw [if_neg hp]
        cases htp : try_place_on_pair project_rooms d1 d2 t st with
        | some st' =>
            have hnp : t.name ∉ placedNames st := fun hmem =>
              hp (isPlaced_iff.mpr hmem)
            exact PInv_attempt_go hne rest st' unpl
              (PInv_try_place hne hnp hinv htp)
        | none => exact PInv_attempt_go hne rest st (unpl ++ [t]) hinv

/-- `attempt_placement_for_pair` preserves the invariant. -/
theorem PInv_attempt_pair {project_rooms : List Room} {d1 d2 : Day} (hne : d1 ≠ d2)
    (teams : List TeamData) (st : PState) (hinv : PInv project_rooms st) :
    PInv project_rooms (attempt_placement_for_pair project_rooms teams d1 d2 st).1 :=
  PInv_attempt_go hne _ _ _ hinv

/-- The fallback day-pair scan preserves the invariant whenever every
candidate pair consists of two distinct days. -/
theorem PInv_try_pairs {project_rooms : List Room} {t : TeamData} :
    ∀ (pairs : List (Day × Day)) (st st' : PState),
      (∀ p ∈ pairs, p.1 ≠ p.2) → t.name ∉ placedNames st → PInv project_rooms st →
      try_pairs project_rooms t pairs st = some st' → PInv project_rooms st'
  | [], _, _, _, _, _, h => by simp [try_pairs] at h
  | (e1, e2) :: rest, st, st', hpairs, hnp, hinv, h => by
      simp only [try_pairs] at h
      cases htp : try_place_on_pair project_rooms e1 e2 t st with
      | some st2 =>
          rw [htp] at h
          cases h
          exact PInv_try_place (hpairs (e1, e2) (List.mem_cons_self _ _)) hnp hinv htp
      | none =>
          rw [htp] at h
          exact PInv_try_pairs rest st st' (fun p hp => hpairs p (List.mem_cons_of_mem _ hp))
            hnp hinv h

/-- Every fallback candidate day pair consists of two distinct days. -/
theorem project_work_day_pairs_ne : ∀ p ∈ project_work_day_pairs, p.1 ≠ p.2 := by
  decide

/-- The fallback team loop preserves the invariant. -/
theorem PInv_fallback_go {project_rooms : List Room} :
    ∀ (teams : List TeamData) (st : PState) (unpl : List TeamData),
      PInv project_rooms st →
      PInv project_rooms (fallback_go project_rooms teams st unpl).1
  | [], _, _, hinv => hinv
  | t :: rest, st, unpl, hinv => by
      simp only [fallback_go]
      by_cases hp : isPlaced st t.name
      · rw [if_pos hp]
        exact PInv_fallback_go rest st unpl hinv
      · rw [if_neg hp]
        have hnp : t.name ∉ placedNames st := fun hmem => hp (isPlaced_iff.mpr hmem)
        have hnp1 : t.name ∉ placedNames { st with rng := lcgNext st.rng } := by simpa [placedNames] using hnp
        have hinv1 : PInv project_rooms { st with rng := lcgNext st.rng } :=
          PInv_rng _ _ _ hinv
        split
        next st' htp =>
          refine PInv_fallback_go rest st' unpl
            (PInv_try_pairs _ { st with rng := lcgNext st.rng } _ ?_ hnp1 hinv1 htp)
          intro p hp2
          exact project_work_day_pairs_ne p (mem_shuffle_iff.mp hp2)
        next htp =>
          exact PInv_fallback_go rest { st with rng := lcgNext st.rng } (unpl ++ [t]) hinv1

/-- The final state of the project-room allocation satisfies the
capacity-ledger invariant, for every room configuration, preference-row
list and seed. -/
theorem PInv_project_allocation (project_rooms : List Room)
    (rows : List (String × Int × String)) (seed : Nat) :
    PInv project_rooms (project_allocation project_rooms rows seed).1 := by
  simp only [project_allocation]
  apply PInv_fallback_go
  apply PInv_rng
  apply PInv_attempt_pair (by simp)
  apply PInv_attempt_pair (by simp)
  exact PInv_init _ _

/-- `usedOn` distributes over occupancy-list append. -/
theorem usedOn_append (l l2 : List (Day × String)) (d : Day) :
    usedOn (l ++ l2) d = usedOn l d ++ usedOn l2 d := by
  simp [usedOn, List.filter_append]

/-- `usedOn` of a one-element occupancy list. -/
theorem usedOn_single (d d2 : Day) (p : String) :
    usedOn [(d2, p)] d = if d2 = d then [p] else [] := by
  by_cases h : d2 = d <;> simp [usedOn, h]

/-- The per-run invariant of the Oasis allocator: per-day occupant sets
are duplicate-free; per-day occupancy respects the capacity bound (or is
still empty, which covers non-positive configured capacities); the
inserted rows for a day list exactly the day's occupant set, in order;
every row is booked on the Oasis resource; no `(person, day)` pair is
booked twice; the per-person counter equals the person's row count and
never exceeds `max_oasis_days_per_person`. -/
structure OInv (cfg : Room) (st : OState) : Prop where
  perday_nodup : ∀ d, (usedOn st.oasis d).Nodup
  perday_cap : ∀ d, ((usedOn st.oasis d).length : Int) ≤ cfg.capacity ∨
      (usedOn st.oasis d).length = 0
  alloc_match : ∀ d,
      ((st.allocs.filter (fun a => a.day == d)).map (fun a => a.team_name)) =
        usedOn st.oasis d
  rooms_oasis : ∀ a ∈ st.allocs, a.room_name = cfg.name
  teamday_nodup : (st.allocs.map (fun a => (a.team_name, a.day))).Nodup
  counts_eq : ∀ p, (st.allocs.filter (fun a => a.team_name == p)).length = st.counts p
  counts_le : ∀ p, st.counts p ≤ max_oasis_days_per_person

/-- The Oasis invariant holds of the empty starting state. -/
theorem OInv_init (cfg : Room) (r : Nat) :
    OInv cfg ⟨[], fun _ => 0, [], r⟩ := by
  constructor <;> simp [usedOn]

/-- The Oasis invariant is insensitive to the RNG component. -/
theorem OInv_rng (cfg : Room) (st : OState) (r : Nat) (h : OInv cfg st) :
    OInv cfg { st with rng := r } := by
  obtain ⟨h1, h2, h3, h4, h5, h6, h7⟩ := h
  exact ⟨h1, h2, h3, h4, h5, h6, h7⟩

/-- The per-person day walk preserves the Oasis invariant. -/
theorem OInv_assign_days {cfg : Room} {p : String} :
    ∀ (days : List Day) (st : OState), OInv cfg st →
      OInv cfg (oasis_assign_days cfg p days st)
  | [], _, hinv => hinv
  | d :: rest, st, hinv => by
      simp only [oasis_assign_days]
      by_cases hbreak : max_oasis_days_per_person ≤ st.counts p
      · rw [if_pos hbreak]
        exact hinv
      · rw [if_neg hbreak]
        by_cases hcap : ((usedOn st.oasis d).length : Int) < cfg.capacity
        · rw [if_pos hcap]
          by_cases hmem : (usedOn st.oasis d).contains p
          · rw [if_pos hmem]
            exact OInv_assign_days rest st hinv
          · rw [if_neg hmem]
            have hpm : p ∉ usedOn st.oasis d := by
              intro hm
              exact hmem (List.elem_iff.mpr hm)
            refine OInv_assign_days rest _ ⟨?_, ?_, ?_, ?_, ?_, ?_, ?_⟩
            ·
              intro d2
              rw [usedOn_append, usedOn_single]
              by_cases hd : d = d2
              · subst hd
                rw [if_pos rfl, List.nodup_append]
                exact ⟨hinv.perday_nodup d, List.nodup_singleton _,
                  fun x hx hx2 => by
                    simp only [List.mem_singleton] at hx2
                    exact hpm (hx2 ▸ hx)⟩
              · rw [if_neg hd, List.append_nil]
                exact hinv.perday_nodup d2
            ·
              intro d2
              rw [usedOn_append, usedOn_single]
              by_cases hd : d = d2
              · subst hd
                rw [if_pos rfl, List.length_append]
                left
                rcases hinv.perday_cap d with h | h
                · push_cast [List.length_singleton]
                  omega
                · rw [h]
                  push_cast [List.length_singleton]
                  omega
              · rw [if_neg hd, List.append_nil]
                exact hinv.perday_cap d2
            ·
              intro d2
              rw [usedOn_append, usedOn_single, List.filter_append, List.map_append,
                hinv.alloc_match d2]
              by_cases hd : d = d2
              · subst hd
                simp
              · simp [if_neg hd, show (d == d2) = false from beq_eq_false_iff_ne.mpr hd]
            ·
              intro a ha
              rcases List.mem_append.mp ha with ha | ha
              · exact hinv.rooms_oasis a ha
              · rcases List.mem_singleton.mp ha with rfl
                rfl
            ·
              simp only [List.map_append]
              rw [List.nodup_append]
              refine ⟨hinv.teamday_nodup, by simp, ?_⟩
              intro q hq hq2
              obtain ⟨a, ha, rfl⟩ := List.mem_map.mp hq
              simp only [List.map_cons, List.map_nil, List.mem_singleton] at hq2
              have haday : a.day = d := congrArg Prod.snd hq2
              have haname : a.team_name = p := congrArg Prod.fst hq2
              have : a.team_name ∈ (st.allocs.filter (fun a2 => a2.day == d)).map
                  (fun a2 => a2.team_name) :=
                List.mem_map.mpr ⟨a, List.mem_filter.mpr ⟨ha, beq_iff_eq.mpr haday⟩, rfl⟩
              rw [hinv.alloc_match d, haname] at this
              exact hpm this
            ·
              intro q
              rw [List.filter_append, List.length_append]
              by_cases hq : q = p
              · subst hq
                simp [hinv.counts_eq q]
              · simp only [beq_iff_eq]
                rw [hinv.counts_eq q]
                simp [hq, Ne.symm hq]
            ·
              intro q
              by_cases hq : q = p
              · subst hq
                simp only [beq_self_eq_true, if_true]
                omega
              · simpa [show (q == p) = false from beq_eq_false_iff_ne.mpr hq]
                  using hinv.counts_le q
        · rw [if_neg hcap]
          exact OInv_assign_days rest st hinv

/-- The Oasis person loop preserves the invariant. -/
theorem OInv_allocation_go {cfg : Room} :
    ∀ (persons : List (String × List (Option String))) (st : OState), OInv cfg st →
      OInv cfg (oasis_allocation_go cfg persons st)
  | [], _, hinv => hinv
  | (p, rawDays) :: rest, st, hinv => by
      simp only [oasis_allocation_go]
      exact OInv_allocation_go rest _
        (OInv_assign_days _ _ (OInv_rng _ _ _ hinv))

/-- The rows produced by the Oasis allocation are the rows of a state
satisfying the Oasis invariant. -/
theorem oasis_allocation_inv (cfg : Room)
    (persons : List (String × List (Option String))) (seed : Nat) :
    ∃ st : OState, oasis_allocation cfg persons seed = st.allocs ∧ OInv cfg st := by
  cases persons with
  | nil => exact ⟨⟨[], fun _ => 0, [], 0⟩, rfl, OInv_init cfg 0⟩
  | cons q rest =>
      refine ⟨oasis_allocation_go cfg (shuffle (q :: rest) seed)
        ⟨[], fun _ => 0, [], lcgNext seed⟩, rfl, ?_⟩
      exact OInv_allocation_go _ _ (OInv_init cfg _)

/-- The Oasis configuration entry is always named `"Oasis"`, whether it
comes from `rooms.json` or from the hard-coded default. -/
theorem oasis_config_of_name (config : List Room) :
    (oasis_config_of config).name = "Oasis" := by
  unfold oasis_config_of
  cases hf : config.find? (fun r => r.name == "Oasis") with
  | none => rfl
  | some r =>
      have := List.find?_some hf
      exact beq_iff_eq.mp this

/-- Dedicated project rooms are exactly the configured rooms not named
`"Oasis"`. -/
theorem project_rooms_of_not_oasis (config : List Room) :
    ∀ rm ∈ project_rooms_of config, rm.name ≠ "Oasis" := by
  intro rm hm
  have := (List.mem_filter.mp hm).2
  simpa using this

/-- If the projection through `g` of a list is duplicate-free and `g`
factors through `f`, the projection through `f` is duplicate-free. -/
theorem nodup_map_of_nodup_map {α β γ : Type} {l : List α} {f : α → β} {g : α → γ}
    (h : (l.map g).Nodup) (hfg : ∀ a b, f a = f b → g a = g b) : (l.map f).Nodup := by
  rw [List.Nodup, List.pairwise_map] at h ⊢
  exact h.imp (fun hab hfab => hab (hfg _ _ hfab))

/-- C1.  For every configuration, input batch, Oasis-preference list and
seed, the committed `weekly_allocations` rows satisfy the capacity
ledger: (a) among project-room rows no `(day, room)` slot is booked by
two teams — each dedicated room hosts at most one team per day; (b) for
every day the Oasis occupants are pairwise distinct and no more numerous
than the configured Oasis capacity; (c) no requester appears twice for
the same `(day, resource)` pair.  The rows only ever grow during a run,
so these pairwise properties of the final row list hold at every
intermediate point as well. -/
theorem allocation_capacity_ledger (config : List Room)
    (raws : List (String × Option Int × String))
    (persons : List (String × List (Option String))) (seed : Nat)
    (hcap : 0 ≤ (oasis_config_of config).capacity) :
    (((allocsOfRun (run_allocation config raws persons seed)).filter
        (fun a => !(a.room_name == "Oasis"))).map
          (fun a => (a.day, a.room_name))).Nodup ∧
    (∀ d : Day,
      (((allocsOfRun (run_allocation config raws persons seed)).filter
          (fun a => a.room_name == "Oasis" && a.day == d)).map
            (fun a => a.team_name)).Nodup ∧
      ((((allocsOfRun (run_allocation config raws persons seed)).filter
          (fun a => a.room_name == "Oasis" && a.day == d)).map
            (fun a => a.team_name)).length : Int) ≤
        (oasis_config_of config).capacity) ∧
    ((allocsOfRun (run_allocation config raws persons seed)).map
        (fun a => (a.team_name, a.day, a.room_name))).Nodup := by
  cases hparse : parseRows raws with
  | error e =>
      simp only [allocsOfRun, run_allocation, hparse]
      refine ⟨by simp, fun d => ⟨by simp, ?_⟩, by simp⟩
      simpa using hcap
  | ok rows =>
      have hrun : allocsOfRun (run_allocation config raws persons seed) =
          (project_allocation (project_rooms_of config) rows seed).1.allocs ++
            oasis_allocation (oasis_config_of config) persons
              (project_allocation (project_rooms_of config) rows seed).1.rng := by
        simp only [run_allocation, hparse, allocsOfRun]
      rw [hrun]
      have pinv := PInv_project_allocation (project_rooms_of config) rows seed
      obtain ⟨ost, hoeq, oinv⟩ := oasis_allocation_inv (oasis_config_of config) persons
        (project_allocation (project_rooms_of config) rows seed).1.rng
      rw [hoeq]
      have hPnotOasis : ∀ a ∈ (project_allocation (project_rooms_of config) rows seed).1.allocs,
          a.room_name ≠ "Oasis" := by
        intro a ha
        obtain ⟨rm, hrm, hname⟩ := pinv.rooms_proj a ha
        rw [hname]
        exact project_rooms_of_not_oasis config rm hrm
      have hOisOasis : ∀ a ∈ ost.allocs, a.room_name = "Oasis" := by
        intro a ha
        rw [oinv.rooms_oasis a ha]
        exact oasis_config_of_name config
      refine ⟨?_, ?_, ?_⟩
      · rw [List.filter_append]
        have h1 : (project_allocation (project_rooms_of config) rows seed).1.allocs.filter
            (fun a => !(a.room_name == "Oasis")) =
              (project_allocation (project_rooms_of config) rows seed).1.allocs :=
          List.filter_eq_self.mpr (fun a ha => by
            simpa using hPnotOasis a ha)
        have h2 : ost.allocs.filter (fun a => !(a.room_name == "Oasis")) = [] :=
          List.filter_eq_nil_iff.mpr (fun a ha => by
            simpa using hOisOasis a ha)
        rw [h1, h2, List.append_nil]
        exact pinv.dayroom_nodup
      · intro d
        rw [List.filter_append]
        have h1 : (project_allocation (project_rooms_of config) rows seed).1.allocs.filter
            (fun a => a.room_name == "Oasis" && a.day == d) = [] :=
          List.filter_eq_nil_iff.mpr (fun a ha => by
            simp [hPnotOasis a ha])
        have h2 : ost.allocs.filter (fun a => a.room_name == "Oasis" && a.day == d) =
            ost.allocs.filter (fun a => a.day == d) :=
          List.filter_congr (fun a ha => by
            simp [hOisOasis a ha])
        rw [h1, h2, List.nil_append, oinv.alloc_match d]
        refine ⟨oinv.perday_nodup d, ?_⟩
        rcases oinv.perday_cap d with h | h
        · exact h
        · rw [h]
          simpa using hcap
      · rw [List.map_append, List.nodup_append]
        refine ⟨?_, ?_, ?_⟩
        · exact nodup_map_of_nodup_map pinv.teamday_nodup
            (fun a b he => by
              have h1 := congrArg Prod.fst he
              have h2 := congrArg (fun x => x.2.1) he
              simp only at h1 h2
              rw [Prod.ext_iff]
              exact ⟨h1, h2⟩)
        · exact nodup_map_of_nodup_map oinv.teamday_nodup
            (fun a b he => by
              have h1 := congrArg Prod.fst he
              have h2 := congrArg (fun x => x.2.1) he
              simp only at h1 h2
              rw [Prod.ext_iff]
              exact ⟨h1, h2⟩)
        · intro x hx hx2
          obtain ⟨a, ha, rfl⟩ := List.mem_map.mp hx
          obtain ⟨b, hb, hba⟩ := List.mem_map.mp hx2
          have : b.room_name = a.room_name := congrArg (fun y => y.2.2) hba
          exact hPnotOasis a ha (this ▸ hOisOasis b hb)

/-- Witness for C1 at a concrete configuration and batch. -/
theorem allocation_capacity_ledger_witness :
    (((allocsOfRun (run_allocation [⟨"A", 4⟩, ⟨"Oasis", 2⟩]
        [("T1", some 4, "Monday,Wednesday")]
        [("P1", [some "Monday", none, none, none, none])] 0)).filter
        (fun a => !(a.room_name == "Oasis"))).map
          (fun a => (a.day, a.room_name))).Nodup ∧
    (∀ d : Day,
      (((allocsOfRun (run_allocation [⟨"A", 4⟩, ⟨"Oasis", 2⟩]
          [("T1", some 4, "Monday,Wednesday")]
          [("P1", [some "Monday", none, none, none, none])] 0)).filter
          (fun a => a.room_name == "Oasis" && a.day == d)).map
            (fun a => a.team_name)).Nodup ∧
      ((((allocsOfRun (run_allocation [⟨"A", 4⟩, ⟨"Oasis", 2⟩]
          [("T1", some 4, "Monday,Wednesday")]
          [("P1", [some "Monday", none, none, none, none])] 0)).filter
          (fun a => a.room_name == "Oasis" && a.day == d)).map
            (fun a => a.team_name)).length : Int) ≤
        (oasis_config_of [⟨"A", 4⟩, ⟨"Oasis", 2⟩]).capacity) ∧
    ((allocsOfRun (run_allocation [⟨"A", 4⟩, ⟨"Oasis", 2⟩]
        [("T1", some 4, "Monday,Wednesday")]
        [("P1", [some "Monday", none, none, none, none])] 0)).map
        (fun a => (a.team_name, a.day, a.room_name))).Nodup :=
  allocation_capacity_ledger [⟨"A", 4⟩, ⟨"Oasis", 2⟩]
    [("T1", some 4, "Monday,Wednesday")]
    [("P1", [some "Monday", none, none, none, none])] 0 (by decide)

/-- C2.  Every team recorded as placed by the project-room allocator
(whether in Phase 1 or in the fallback phase) has exactly two
`weekly_allocations` rows, both naming the same room, on two distinct
days; a team not recorded as placed has no rows at all.  In particular
no team is ever given only one of its two days. -/
theorem placed_team_two_assignments (project_rooms : List Room)
    (rows : List (String × Int × String)) (seed : Nat) (n : String) :
    (n ∈ placedNames (project_allocation project_rooms rows seed).1 →
      ∃ r d1 d2, d1 ≠ d2 ∧
        ((project_allocation project_rooms rows seed).1.allocs.filter
          (fun a => a.team_name == n)) = [⟨n, r, d1⟩, ⟨n, r, d2⟩]) ∧
    (n ∉ placedNames (project_allocation project_rooms rows seed).1 →
      ((project_allocation project_rooms rows seed).1.allocs.filter
        (fun a => a.team_name == n)) = []) :=
  ⟨(PInv_project_allocation project_rooms rows seed).team_two n,
   (PInv_project_allocation project_rooms rows seed).team_none n⟩

/-- Witness for C2: a concrete team placed on Monday/Wednesday. -/
theorem placed_team_two_assignments_witness :
    ("T1" ∈ placedNames (project_allocation [⟨"A", 4⟩]
        [("T1", 4, "Monday,Wednesday")] 0).1 →
      ∃ r d1 d2, d1 ≠ d2 ∧
        ((project_allocation [⟨"A", 4⟩] [("T1", 4, "Monday,Wednesday")] 0).1.allocs.filter
          (fun a => a.team_name == "T1")) = [⟨"T1", r, d1⟩, ⟨"T1", r, d2⟩]) ∧
    ("T1" ∉ placedNames (project_allocation [⟨"A", 4⟩]
        [("T1", 4, "Monday,Wednesday")] 0).1 →
      ((project_allocation [⟨"A", 4⟩] [("T1", 4, "Monday,Wednesday")] 0).1.allocs.filter
        (fun a => a.team_name == "T1")) = []) :=
  placed_team_two_assignments [⟨"A", 4⟩] [("T1", 4, "Monday,Wednesday")] 0 "T1"

/-- The two-row shape of the witness run, concretely: the hypothesis of
the first conjunct of `placed_team_two_assignments_witness` is
satisfied. -/
theorem placed_team_witness_input_placed :
    "T1" ∈ placedNames (project_allocation [⟨"A", 4⟩]
      [("T1", 4, "Monday,Wednesday")] 0).1 := by decide

/-- C3.  No person ever receives more than `max_oasis_days_per_person`
Oasis rows — for every configuration, preference list and seed, i.e.
regardless of how much free capacity their other preferred days still
have — and the constant of the current policy is 2. -/
theorem oasis_fairness_bound (cfg : Room)
    (persons : List (String × List (Option String))) (seed : Nat) (p : String) :
    ((oasis_allocation cfg persons seed).filter
      (fun a => a.team_name == p)).length ≤ max_oasis_days_per_person ∧
    max_oasis_days_per_person = 2 := by
  obtain ⟨st, heq, oinv⟩ := oasis_allocation_inv cfg persons seed
  rw [heq]
  exact ⟨le_of_le_of_eq (le_of_eq (oinv.counts_eq p)) rfl |>.trans (oinv.counts_le p), rfl⟩

/-- C10.  For every input batch — including batches repeating a team
name — a team name gathers at most two project-room rows and at most one
distinct room, and the `placed_teams_info` keys stay duplicate-free (a
name placed once is skipped by every later row in both phases). -/
theorem team_name_placed_at_most_once (project_rooms : List Room)
    (rows : List (String × Int × String)) (seed : Nat) (n : String) :
    ((project_allocation project_rooms rows seed).1.allocs.filter
      (fun a => a.team_name == n)).length ≤ 2 ∧
    (((project_allocation project_rooms rows seed).1.allocs.filter
      (fun a => a.team_name == n)).map (fun a => a.room_name)).dedup.length ≤ 1 ∧
    (placedNames (project_allocation project_rooms rows seed).1).Nodup := by
  have pinv := PInv_project_allocation project_rooms rows seed
  refine ⟨?_, ?_, pinv.placed_nodup⟩ <;>
    by_cases hmem : n ∈ placedNames (project_allocation project_rooms rows seed).1
  · obtain ⟨r, d1, d2, _, heq⟩ := pinv.team_two n hmem
    rw [heq]
    simp
  · rw [pinv.team_none n hmem]
    simp
  · obtain ⟨r, d1, d2, _, heq⟩ := pinv.team_two n hmem
    rw [heq]
    simp [List.dedup_cons_of_mem]
  · rw [pinv.team_none n hmem]
    simp

/-- C4.  Whenever a placement attempt on a day pair succeeds, the chosen
room is eligible (unoccupied on both days, capacity at least the team
size), its capacity is minimal among all eligible rooms (best fit), and
the state is updated by booking exactly that room on both days.  The
random tie-break is modelled by the seed: for every seed the chosen room
lies in the minimum-capacity candidate set.  When no room is eligible
the attempt returns `none` and the callers defer the team (Phase 1) or
try the next day pair (fallback), by definition of
`attempt_placement_go` and `try_pairs`. -/
theorem best_fit_room_selection (project_rooms : List Room) (d1 d2 : Day)
    (t : TeamData) (st st' : PState)
    (h : try_place_on_pair project_rooms d1 d2 t st = some st') :
    possible_rooms_for_team project_rooms st.used d1 d2 t.size ≠ [] ∧
    ∃ chosen,
      chosen ∈ possible_rooms_for_team project_rooms st.used d1 d2 t.size ∧
      chosen ∈ project_rooms ∧
      (d1, chosen.name) ∉ st.used ∧ (d2, chosen.name) ∉ st.used ∧
      t.size ≤ chosen.capacity ∧
      (∀ r ∈ possible_rooms_for_team project_rooms st.used d1 d2 t.size,
        chosen.capacity ≤ r.capacity) ∧
      st' = { used := st.used ++ [(d1, chosen.name), (d2, chosen.name)]
            , placed := st.placed ++ [(t.name, d1, d2)]
            , allocs := st.allocs ++ [⟨t.name, chosen.name, d1⟩, ⟨t.name, chosen.name, d2⟩]
            , rng := lcgNext st.rng } := by
  obtain ⟨chosen, hposs, hcap, hst⟩ := try_place_eq_some h
  obtain ⟨hcr, hc1, hc2, hsz⟩ := mem_possible_rooms.mp hposs
  refine ⟨List.ne_nil_of_mem hposs, chosen, hposs, hcr, hc1, hc2, hsz, ?_, hst⟩
  intro r hr
  rw [hcap]
  exact min_suitable_capacity_le hr

/-- Witness for C4: a concrete successful placement. -/
theorem best_fit_room_selection_witness :
    possible_rooms_for_team [⟨"A", 4⟩] ([] : List (Day × String)) Day.monday Day.wednesday 3 ≠ [] ∧
    ∃ chosen,
      chosen ∈ possible_rooms_for_team [⟨"A", 4⟩] [] Day.monday Day.wednesday 3 ∧
      chosen ∈ [(⟨"A", 4⟩ : Room)] ∧
      (Day.monday, chosen.name) ∉ ([] : List (Day × String)) ∧
      (Day.wednesday, chosen.name) ∉ ([] : List (Day × String)) ∧
      (3 : Int) ≤ chosen.capacity ∧
      (∀ r ∈ possible_rooms_for_team [⟨"A", 4⟩] [] Day.monday Day.wednesday 3,
        chosen.capacity ≤ r.capacity) ∧
      ({ used := [(Day.monday, "A"), (Day.wednesday, "A")]
       , placed := [("T1", Day.monday, Day.wednesday)]
       , allocs := [⟨"T1", "A", Day.monday⟩, ⟨"T1", "A", Day.wednesday⟩]
       , rng := 1442695040888963407 } : PState) =
        { used := [] ++ [(Day.monday, chosen.name), (Day.wednesday, chosen.name)]
        , placed := [] ++ [("T1", Day.monday, Day.wednesday)]
        , allocs := [] ++ [⟨"T1", chosen.name, Day.monday⟩, ⟨"T1", chosen.name, Day.wednesday⟩]
        , rng := lcgNext 0 } :=
  best_fit_room_selection [⟨"A", 4⟩] Day.monday Day.wednesday ⟨"T1", 3, ["Monday", "Wednesday"]⟩
    ⟨[], [], [], 0⟩ _ (by decide)

/-- C7.  The whole run is a pure function of its inputs and the seed:
with the RNG modelled as a deterministic function of the seed, two runs
on the same inputs and seed commit identical rows and report identical
unplaced lists. -/
theorem run_allocation_deterministic (config : List Room)
    (raws : List (String × Option Int × String))
    (persons : List (String × List (Option String))) (s1 s2 : Nat) (h : s1 = s2) :
    run_allocation config raws persons s1 = run_allocation config raws persons s2 := by
  rw [h]

/-- Witness for C7 at a concrete input and seed. -/
theorem run_allocation_deterministic_witness :
    run_allocation [⟨"A", 4⟩] [("T1", some 4, "Monday,Wednesday")] [] 7 =
      run_allocation [⟨"A", 4⟩] [("T1", some 4, "Monday,Wednesday")] [] 7 :=
  run_allocation_deterministic [⟨"A", 4⟩] [("T1", some 4, "Monday,Wednesday")] [] 7 7 rfl

/-- Inserting into the insertion sort grows the length by one. -/
theorem insertStrAsc_length (x : String) :
    ∀ l : List String, (insertStrAsc x l).length = l.length + 1
  | [] => rfl
  | y :: ys => by
      by_cases h : pyStrLt y x
      · simp [insertStrAsc, h, insertStrAsc_length x ys]
      · simp [insertStrAsc, h]

/-- Sorting preserves length. -/
theorem sortStrings_length : ∀ l : List String, (sortStrings l).length = l.length
  | [] => rfl
  | x :: xs => by
      simp only [sortStrings, List.foldr_cons]
      rw [insertStrAsc_length,
        show List.foldr insertStrAsc [] xs = sortStrings xs from rfl,
        sortStrings_length xs, List.length_cons]

/-- Sorting a two-element list. -/
theorem sortStrings_pair (a b : String) :
    sortStrings [a, b] = if pyStrLt b a then [b, a] else [a, b] := by
  by_cases h : pyStrLt b a <;> simp [sortStrings, insertStrAsc, h]

/-- The sorted day-label list can never be `["Tuesday", "Thursday"]`:
lexicographically, `"Thursday" < "Tuesday"`, so Python's `sorted` puts
`"Thursday"` first.  This makes the comparison at `allocate_rooms.py`,
line 99, unsatisfiable. -/
theorem sortStrings_ne_tue_thu (m : List String) :
    sortStrings m ≠ ["Tuesday", "Thursday"] := by
  intro h
  have hl : m.length = 2 := by
    rw [← sortStrings_length m, h]
    rfl
  obtain ⟨a, b, rfl⟩ := List.length_eq_two.mp hl
  rw [sortStrings_pair] at h
  by_cases hlt : pyStrLt b a
  · rw [if_pos hlt] at h
    have hb : b = "Tuesday" := by injection h
    have ha : a = "Thursday" := by
      injection h with _ h2
      injection h2
    subst hb
    subst ha
    exact absurd hlt (by decide)
  · rw [if_neg hlt] at h
    have ha : a = "Tuesday" := by injection h
    have hb : b = "Thursday" := by
      injection h with _ h2
      injection h2
    subst hb
    subst ha
    exact hlt (by decide)

/-- The `teams_for_tue_thu` bucket is empty for every input batch: the
`elif pref_day_labels == ["Tuesday", "Thursday"]` branch is dead code. -/
theorem classifyTeams_tueThu_nil : ∀ rows, (classifyTeams rows).tueThu = []
  | [] => rfl
  | (n, sz, prefStr) :: rest => by
      simp only [classifyTeams]
      have hne : normalizeDays prefStr ≠ ["Tuesday", "Thursday"] :=
        sortStrings_ne_tue_thu _
      by_cases h1 : normalizeDays prefStr = ["Monday", "Wednesday"]
      · rw [if_pos h1]
        exact classifyTeams_tueThu_nil rest
      · rw [if_neg h1, if_neg hne]
        exact classifyTeams_tueThu_nil rest

/-- C5 (code bug).  The classification loop sorts the normalised labels,
so a `{Tuesday, Thursday}` preference normalises to
`["Thursday", "Tuesday"]` and the comparison with
`["Tuesday", "Thursday"]` at `allocate_rooms.py`, line 99, never
matches: a team with the recognised Tuesday/Thursday preference is
routed to `teams_for_fallback_immediately`, the Tuesday/Thursday Phase-1
pass always receives an empty list, and the fallback pool therefore
contains teams the specification says should not be in it. -/
theorem tue_thu_preference_misrouted :
    normalizeDays "Tuesday,Thursday" = ["Thursday", "Tuesday"] ∧
    classifyTeams [("TeamA", 4, "Tuesday,Thursday")] =
      ⟨[], [], [⟨"TeamA", 4, ["Thursday", "Tuesday"]⟩]⟩ ∧
    ∀ rows, (classifyTeams rows).tueThu = [] :=
  ⟨by decide, by decide, classifyTeams_tueThu_nil⟩

/-- Total configured capacity of a room list. -/
def total_capacity (rooms : List Room) : Int :=
  (rooms.map (fun r => r.capacity)).sum

/-- A two-room configuration used to test monotonicity. -/
def c6_base_rooms : List Room := [⟨"R", 6⟩, ⟨"D", 4⟩]

/-- The same configuration with one more room appended.  `rooms.json` is
an arbitrary JSON list and nothing in the code enforces unique names, so
the added capacity-3 entry shares the name `"R"` with the capacity-6
room. -/
def c6_more_rooms : List Room := [⟨"R", 6⟩, ⟨"D", 4⟩, ⟨"R", 3⟩]

/-- A batch with one small Monday/Wednesday team and two size-6 teams
with unrecognised preferences (routed directly to fallback). -/
def c6_raw_rows : List (String × Option Int × String) :=
  [("Tsmall", some 3, "Monday,Wednesday"),
   ("Big1", some 6, "Friday"), ("Big2", some 6, "Friday")]

/-- C6 counterexample.  Adding a room that strictly increases total
capacity (all else equal, same inputs and seed) can increase the
unplaced-team count: with the extra capacity-3 entry named `"R"`, the
small team's best-fit choice books the *name* `"R"` on Monday and
Wednesday (instead of room `"D"`), `used_rooms_on_date` blocks the
capacity-6 entry of the same name on those days, and only one of the two
size-6 teams can still be placed — where the smaller configuration
placed all three teams.  (The effect is seed-independent; seed 0 is
shown.) -/
theorem adding_room_increases_unplaced :
    total_capacity c6_more_rooms > total_capacity c6_base_rooms ∧
    c6_more_rooms = c6_base_rooms ++ [⟨"R", 3⟩] ∧
    (unplacedOfRun (run_allocation c6_base_rooms c6_raw_rows [] 0)).length = 0 ∧
    (unplacedOfRun (run_allocation c6_more_rooms c6_raw_rows [] 0)).length = 1 := by
  refine ⟨by decide, rfl, by decide, by decide⟩

/-- C6 as amended.  What does hold is local monotonicity: at any fixed
occupancy state, adding rooms only enlarges every team's eligible-room
set — adding rooms never makes a previously eligible room ineligible.
End-to-end monotonicity of the unplaced count fails
(`adding_room_increases_unplaced`). -/
theorem eligible_rooms_monotone (rooms extra : List Room)
    (used : List (Day × String)) (d1 d2 : Day) (sz : Int) (r : Room)
    (h : r ∈ possible_rooms_for_team rooms used d1 d2 sz) :
    r ∈ possible_rooms_for_team (rooms ++ extra) used d1 d2 sz := by
  rw [mem_possible_rooms] at h ⊢
  exact ⟨List.mem_append_left _ h.1, h.2.1, h.2.2.1, h.2.2.2⟩

/-- Witness for the amended C6 statement. -/
theorem eligible_rooms_monotone_witness :
    (⟨"R", 6⟩ : Room) ∈ possible_rooms_for_team (c6_base_rooms ++ [⟨"R", 3⟩]) []
      Day.monday Day.wednesday 6 :=
  eligible_rooms_monotone c6_base_rooms [⟨"R", 3⟩] [] Day.monday Day.wednesday 6
    ⟨"R", 6⟩ (by decide)

/-- A batch containing a row whose `int(team_size)` conversion fails
makes the whole parse fail, modelling the exception escaping to the
handler at `allocate_rooms.py`, lines 321-327. -/
theorem parseRows_error_of_malformed :
    ∀ raws : List (String × Option Int × String),
      (∃ row ∈ raws, row.2.1 = none) → ∃ e, parseRows raws = .error e
  | [], h => by simp at h
  | (n, osz, p) :: rest, h => by
      cases osz with
      | none => exact ⟨_, rfl⟩
      | some z =>
          have hrest : ∃ row ∈ rest, row.2.1 = none := by
            obtain ⟨row, hrow, hnone⟩ := h
            rcases List.mem_cons.mp hrow with rfl | hrow
            · simp at hnone
            · exact ⟨row, hrow, hnone⟩
          obtain ⟨e, he⟩ := parseRows_error_of_malformed rest hrest
          refine ⟨e, ?_⟩
          simp only [parseRows, he]
          rfl

/-- C8 counterexample.  A batch with one well-formed row and one row
whose team size is malformed is aborted as a whole: the run returns an
error, commits no rows and reports nothing — the well-formed row is
*not* processed, contradicting per-row rejection. -/
theorem malformed_row_aborts_whole_batch :
    run_allocation [⟨"A", 4⟩]
        [("Good", some 4, "Monday,Wednesday"), ("Bad", none, "Monday,Wednesday")] [] 0 =
      .error "General error during allocation: ValueError - invalid literal for int()" ∧
    allocsOfRun (run_allocation [⟨"A", 4⟩]
        [("Good", some 4, "Monday,Wednesday"), ("Bad", none, "Monday,Wednesday")] [] 0) = [] := by
  exact ⟨rfl, rfl⟩

/-- C8 as amended.  In the batch path (`run_allocation`) a malformed
team size anywhere aborts the entire run with an error, no rows
committed and no report (the transaction is rolled back); there is no
per-row rejection there.  Range validation exists only in the
single-submission path: `validate_team_size` accepts exactly the sizes
in `[MIN_TEAM_SIZE, MAX_TEAM_SIZE]`, and a rejected single submission
leaves other rows untouched because each submission is validated on its
own. -/
theorem malformed_size_aborts_run (config : List Room)
    (raws : List (String × Option Int × String))
    (persons : List (String × List (Option String))) (seed : Nat)
    (h : ∃ row ∈ raws, row.2.1 = none) :
    (∃ e, run_allocation config raws persons seed = .error e) ∧
    allocsOfRun (run_allocation config raws persons seed) = [] ∧
    unplacedOfRun (run_allocation config raws persons seed) = [] ∧
    (∀ n : Int, validate_team_size n = true ↔
      (MIN_TEAM_SIZE ≤ n ∧ n ≤ MAX_TEAM_SIZE)) := by
  obtain ⟨e, he⟩ := parseRows_error_of_malformed raws h
  refine ⟨⟨e, ?_⟩, ?_, ?_, ?_⟩
  · simp only [run_allocation, he]
  · simp only [allocsOfRun, run_allocation, he]
  · simp only [unplacedOfRun, run_allocation, he]
  · intro n
    simp [validate_team_size]

/-- Witness for the amended C8 statement. -/
theorem malformed_size_aborts_run_witness :
    (∃ e, run_allocation [⟨"A", 4⟩]
        [("Good", some 4, "Monday,Wednesday"), ("Bad", none, "Monday,Wednesday")] [] 0 =
          .error e) ∧
    allocsOfRun (run_allocation [⟨"A", 4⟩]
        [("Good", some 4, "Monday,Wednesday"), ("Bad", none, "Monday,Wednesday")] [] 0) = [] ∧
    unplacedOfRun (run_allocation [⟨"A", 4⟩]
        [("Good", some 4, "Monday,Wednesday"), ("Bad", none, "Monday,Wednesday")] [] 0) = [] ∧
    (∀ n : Int, validate_team_size n = true ↔
      (MIN_TEAM_SIZE ≤ n ∧ n ≤ MAX_TEAM_SIZE)) :=
  malformed_size_aborts_run [⟨"A", 4⟩]
    [("Good", some 4, "Monday,Wednesday"), ("Bad", none, "Monday,Wednesday")] [] 0
    ⟨("Bad", none, "Monday,Wednesday"), by decide, rfl⟩

/-- With no project rooms configured, no placement attempt can succeed. -/
theorem try_place_nil_rooms (d1 d2 : Day) (t : TeamData) (st : PState) :
    try_place_on_pair [] d1 d2 t st = none := rfl

/-- With no project rooms and nothing placed yet, the Phase-1 loop
changes no state and defers every team. -/
theorem attempt_go_nil_rooms (d1 d2 : Day) :
    ∀ (teams : List TeamData) (st : PState) (unpl : List TeamData), st.placed = [] →
      attempt_placement_go [] d1 d2 teams st unpl = (st, unpl ++ teams)
  | [], st, unpl, _ => by simp [attempt_placement_go]
  | t :: rest, st, unpl, h => by
      have hp : isPlaced st t.name = false := by simp [isPlaced, h]
      simp only [attempt_placement_go, hp, Bool.false_eq_true, if_false, try_place_nil_rooms]
      rw [attempt_go_nil_rooms d1 d2 rest st (unpl ++ [t]) h]
      simp

/-- With no project rooms, every day-pair attempt fails. -/
theorem try_pairs_nil_rooms (t : TeamData) :
    ∀ (pairs : List (Day × Day)) (st : PState), try_pairs [] t pairs st = none
  | [], _ => rfl
  | (d1, d2) :: rest, st => by
      simp only [try_pairs, try_place_nil_rooms]
      exact try_pairs_nil_rooms t rest st

/-- With no project rooms and nothing placed yet, the fallback loop
reports every team as unplaced. -/
theorem fallback_go_nil_rooms :
    ∀ (teams : List TeamData) (st : PState) (unpl : List TeamData), st.placed = [] →
      (fallback_go [] teams st unpl).2 = unpl ++ teams
  | [], st, unpl, _ => by simp [fallback_go]
  | t :: rest, st, unpl, h => by
      have hp : isPlaced st t.name = false := by simp [isPlaced, h]
      simp only [fallback_go, hp, Bool.false_eq_true, if_false, try_pairs_nil_rooms]
      rw [fallback_go_nil_rooms rest { st with rng := lcgNext st.rng } (unpl ++ [t])
        (by simp [h])]
      simp

/-- Every input row's team data lands in one of the three routing
buckets. -/
theorem classifyTeams_mem :
    ∀ (rows : List (String × Int × String)) (row : String × Int × String), row ∈ rows →
      (⟨row.1, row.2.1, normalizeDays row.2.2⟩ : TeamData) ∈
        (classifyTeams rows).monWed ++ (classifyTeams rows).tueThu ++
          (classifyTeams rows).fallbackNow
  | [], _, h => by simp at h
  | (n, sz, p) :: rest, row, h => by
      simp only [classifyTeams]
      rcases List.mem_cons.mp h with rfl | h
      · by_cases h1 : normalizeDays p = ["Monday", "Wednesday"]
        · rw [if_pos h1]
          simp
        · rw [if_neg h1]
          by_cases h2 : normalizeDays p = ["Tuesday", "Thursday"]
          · rw [if_pos h2]
            simp
          · rw [if_neg h2]
            simp
      · have ih := classifyTeams_mem rest row h
        simp only [List.mem_append] at ih
        by_cases h1 : normalizeDays p = ["Monday", "Wednesday"]
        · rw [if_pos h1]
          simp only [List.mem_append, List.mem_cons]
          tauto
        · rw [if_neg h1]
          by_cases h2 : normalizeDays p = ["Tuesday", "Thursday"]
          · rw [if_pos h2]
            simp only [List.mem_append, List.mem_cons]
            tauto
          · rw [if_neg h2]
            simp only [List.mem_append, List.mem_cons]
            tauto

/-- With no project rooms, the project allocation's unplaced report is
the whole (shuffled and size-sorted) input pool. -/
theorem project_allocation_nil_rooms_spec (rows : List (String × Int × String)) (seed : Nat) :
    (project_allocation [] rows seed).2 =
      sortTeamsDesc (shuffle
        (sortTeamsDesc (shuffle (classifyTeams rows).monWed seed) ++
         sortTeamsDesc (shuffle (classifyTeams rows).tueThu (lcgNext seed)) ++
         shuffle (classifyTeams rows).fallbackNow (lcgNext (lcgNext seed)))
        (lcgNext (lcgNext (lcgNext seed)))) := by
  simp only [project_allocation, attempt_placement_for_pair]
  rw [attempt_go_nil_rooms Day.monday Day.wednesday
    (sortTeamsDesc (shuffle (classifyTeams rows).monWed seed))
    ⟨[], [], [], lcgNext (lcgNext (lcgNext seed))⟩ [] rfl]
  simp only [List.nil_append]
  rw [attempt_go_nil_rooms Day.tuesday Day.thursday
    (sortTeamsDesc (shuffle (classifyTeams rows).tueThu (lcgNext seed)))
    ⟨[], [], [], lcgNext (lcgNext (lcgNext seed))⟩ [] rfl]
  simp only [List.nil_append]
  rw [fallback_go_nil_rooms _ _ _ rfl]
  simp only [List.nil_append]

/-- C9 counterexample.  When the Oasis resource is missing from the room
configuration, the capacity the allocator falls back to (the hard-coded
`{"name": "Oasis", "capacity": 15}` of `allocate_rooms.py`, line 74) is
*not* the documented default `Config.OASIS_DEFAULT_CAPACITY = 12` of
`config.py`, line 49. -/
theorem oasis_fallback_capacity_not_documented_default :
    ¬ ((oasis_config_of []).capacity = OASIS_DEFAULT_CAPACITY) := by decide

/-- C9 as amended.  Configuration faults do not make the run fail, but
the Oasis fallback capacity is the hard-coded 15, not the configured
default 12: when no configured room is named `"Oasis"`, the allocator
proceeds with `⟨"Oasis", 15⟩`; and with zero project rooms configured,
every input row's team is reported in the unplaced list instead of
raising an error. -/
theorem config_faults_tolerated :
    (∀ config : List Room, config.find? (fun r => r.name == "Oasis") = none →
        oasis_config_of config = ⟨"Oasis", 15⟩) ∧
    (∀ (rows : List (String × Int × String)) (seed : Nat)
        (row : String × Int × String), row ∈ rows →
        (⟨row.1, row.2.1, normalizeDays row.2.2⟩ : TeamData) ∈
          (project_allocation [] rows seed).2) := by
  constructor
  · intro config hf
    unfold oasis_config_of
    rw [hf]
  · intro rows seed row hrow
    rw [project_allocation_nil_rooms_spec]
    rw [mem_sortTeamsDesc, mem_shuffle_iff]
    have hmem := classifyTeams_mem rows row hrow
    simp only [List.mem_append] at hmem ⊢
    rcases hmem with (h | h) | h
    · exact Or.inl (Or.inl (mem_sortTeamsDesc.mpr (mem_shuffle_iff.mpr h)))
    · exact Or.inl (Or.inr (mem_sortTeamsDesc.mpr (mem_shuffle_iff.mpr h)))
    · exact Or.inr (mem_shuffle_iff.mpr h)

/-- Witness for the amended C9 statement. -/
theorem config_faults_tolerated_witness :
    oasis_config_of [⟨"A", 4⟩] = ⟨"Oasis", 15⟩ ∧
    (⟨"T1", 4, normalizeDays "Monday,Wednesday"⟩ : TeamData) ∈
      (project_allocation [] [("T1", 4, "Monday,Wednesday")] 0).2 :=
  ⟨config_faults_tolerated.1 [⟨"A", 4⟩] (by decide),
   config_faults_tolerated.2 [("T1", 4, "Monday,Wednesday")] 0
     ("T1", 4, "Monday,Wednesday") (by decide)⟩
